import Mathlib

/-!
Verification of the melobot connection-lifecycle core and its concurrency
toolkit.  The Lean definitions below are a shallow embedding of the Python
sources:

* `src/src/melobot/io/forward_ws.py` — the `ForwardWsConn` connector
  (connect/retry loop `_run`, terminal close `_close`, reconnection
  `_reconnect`, outbound sender loop `_send_queue_watch`, inbound receive
  loop `_listen`);
* `src/src/melobot/types/tools.py` — `AsyncTwinEvent` / `get_twin_event`,
  the `cooldown` guard decorator, and the snowflake `IdWorker`;
* `src/melobot/types/models.py` — `Flagable.mark` / `Flagable.flag_check`.

Time is modelled by rationals, the wall clock by explicit parameters, and
the cooperative scheduler by explicit per-iteration delay inputs.  Fallible
Python code is embedded with `Except` / `Option`.
-/

namespace Melobot

/-! ### Twin events (`AsyncTwinEvent`, `get_twin_event`)

The pair of mutually bound events is modelled by the pair of their `is_set`
flags.  `get_twin_event` builds two unset events and runs `a.bind(b)` then
`b.bind(a)` exactly as the source does: `bind` stores the twin and then, if
`self` is set, clears the twin via the raw `Event.clear`, else sets it via
the raw `Event.set`.  After binding, `set` on one member performs the raw
set on itself and the raw clear on its twin; `clear` performs the raw clear
on itself and the raw set on its twin. -/

structure TwinState where
  aSet : Bool
  bSet : Bool
deriving DecidableEq

/-- The state of the pair returned by `get_twin_event()`: two fresh unset
events, then `a.bind(b)` (sets `b` because `a` is unset), then `b.bind(a)`
(clears `a` because `b` is now set). -/
def get_twin_event : TwinState :=
  let a := false
  let b := false
  let b := if a then false else true
  let a := if b then false else true
  ⟨a, b⟩

inductive TwinOp
  | setA
  | clearA
  | setB
  | clearB
deriving DecidableEq

/-- One `set`/`clear` call on either member of a bound pair
(`AsyncTwinEvent.set` / `AsyncTwinEvent.clear` with the twin present). -/
def twinApply : TwinState → TwinOp → TwinState
  | _, .setA => ⟨true, false⟩
  | _, .clearA => ⟨false, true⟩
  | _, .setB => ⟨false, true⟩
  | _, .clearB => ⟨true, false⟩

/-- Exactly one of the two bound events is set. -/
def exactlyOne (s : TwinState) : Bool :=
  xor s.aSet s.bSet

/-! ### Flag store (`Flagable.mark` / `Flagable.flag_check`)

Python dicts keyed by strings are modelled as association lists with
first-match lookup and in-place update; a stored Python value is modelled
as `Option V` where `none` stands for Python `None`.  The outer
`_flags_store` starts out as `None`, hence one more `Option` layer. -/

/-- Dict update `d[k] = v`: replace the first binding of `k`, or append. -/
def dinsert {α : Type} (k : String) (v : α) : List (String × α) → List (String × α)
  | [] => [(k, v)]
  | (k₂, v₂) :: rest => if k₂ = k then (k, v) :: rest else (k₂, v₂) :: dinsert k v rest

/-- Dict lookup `d.get(k)`. -/
def dget {α : Type} (k : String) : List (String × α) → Option α
  | [] => none
  | (k₂, v₂) :: rest => if k₂ = k then some v₂ else dget k rest

/-- The `_flags_store` field: `None`, or a dict of per-namespace dicts. -/
def FlagStore (V : Type) : Type :=
  Option (List (String × List (String × Option V)))

/-- `Flagable.mark(namespace, flag_name, val)`: autovivify the store and the
namespace dict, refuse a duplicate flag (`TryFlagFailed`, modelled as
`Except.error`), otherwise record the value. -/
def mark {V : Type} (store : FlagStore V) (ns flagName : String) (val : Option V) :
    Except Unit (FlagStore V) :=
  let s := match store with
    | none => []
    | some s => s
  let flags := (dget ns s).getD []
  match dget flagName flags with
  | some _ => .error ()
  | none => .ok (some (dinsert ns (dinsert flagName val flags) s))

/-- `Flagable.flag_check(namespace, flag_name, val)`: `False` when the store,
the namespace or the flag is missing; otherwise `flag is val` when `val` is
`None` (identity with `None` is equality with `None`), else `flag == val`. -/
def flag_check {V : Type} [DecidableEq V] (store : FlagStore V) (ns flagName : String)
    (val : Option V) : Bool :=
  match store with
  | none => false
  | some s =>
    match dget ns s with
    | none => false
    | some flags =>
      match dget flagName flags with
      | none => false
      | some flag =>
        match val with
        | none => decide (flag = none)
        | some v => decide (flag = some v)

/-- The stored value of a flag, when present (`Void` sentinel absent). -/
def flagAt {V : Type} (store : FlagStore V) (ns flagName : String) : Option (Option V) :=
  match store with
  | none => none
  | some s =>
    match dget ns s with
    | none => none
    | some flags => dget flagName flags

/-! ### Connector close / reconnect state (`ForwardWsConn`)

The fields of `ForwardWsConn` that `_close`, `_reconnect` and the
`finally:` block of `_listen` read and write: whether the `_client_close`
future is resolved, the `_allow_reconn` gate, the `_reconn_flag` marker and
the `_conn_ready` event. -/

structure ConnState where
  clientCloseDone : Bool
  allowReconn : Bool
  reconnFlag : Bool
  connReady : Bool
deriving DecidableEq

/-- `ForwardWsConn._close`: if `_client_close` is already resolved, return
at once; otherwise force `_allow_reconn` to `False` and resolve the future.
The boolean output records whether the teardown side effect
(`set_result`) was performed by this call. -/
def closeConn (s : ConnState) : ConnState × Bool :=
  if s.clientCloseDone then (s, false)
  else ({ s with allowReconn := false, clientCloseDone := true }, true)

/-- `ForwardWsConn._reconnect`: clear `_conn_ready`, resolve the old
`_client_close` future, raise `_reconn_flag`, and spawn a fresh `_run`. -/
def reconnectConn (s : ConnState) : ConnState :=
  { s with connReady := false, clientCloseDone := true, reconnFlag := true }

inductive ListenExit
  | quiet
  | closedSelf
  | reconnected
deriving DecidableEq

/-- The `finally:` block of `ForwardWsConn._listen`: exit quietly when the
close future is already resolved; otherwise perform the terminal close
itself when reconnection is not allowed; otherwise hand over to
`_reconnect`. -/
def listenFinally (s : ConnState) : ConnState × ListenExit :=
  if s.clientCloseDone then (s, .quiet)
  else if !s.allowReconn then ((closeConn s).1, .closedSelf)
  else (reconnectConn s, .reconnected)

/-! ### Connect retry loop (`ForwardWsConn._run`)

The environment is abstracted by `succeeds i`, telling whether the `i`-th
`websockets.connect` attempt succeeds.  The loop iterates over
`range(max_retry + 1)` when `max_retry >= 0` and over the unbounded
`count(0)` otherwise; every failed attempt logs a warning and sleeps
`retry_delay` before the next iteration, and the `BotConnectFailed`
exception is raised only when the bounded iterator is exhausted with no
attempt having succeeded. -/

inductive ConnectResult
  | connected (attempts : ℕ)
  | connectFailed (attempts : ℕ)
deriving DecidableEq

/-- The `for _ in iter:` body of `_run` over a bounded budget: `i` attempts
were already made, `budget` iterations remain.  Exhaustion of the budget
reaches the `if not created_flag: raise BotConnectFailed` line. -/
def connectGo (succeeds : ℕ → Bool) : ℕ → ℕ → ConnectResult
  | i, 0 => .connectFailed i
  | i, b + 1 => if succeeds i then .connected (i + 1) else connectGo succeeds (i + 1) b

/-- The same loop body driven by the unbounded iterator `count(0)`,
observed for `fuel` iterations: `none` means the loop is still running
(and in particular has raised nothing). -/
def connectGoUnbounded (succeeds : ℕ → Bool) : ℕ → ℕ → Option ConnectResult
  | _, 0 => none
  | i, f + 1 =>
    if succeeds i then some (.connected (i + 1)) else connectGoUnbounded succeeds (i + 1) f

/-- `_run`, branching on the sign of `max_retry` exactly as
`iter = count(0) if self.max_retry < 0 else range(self.max_retry + 1)`
does; `fuel` bounds the observation of the unbounded branch. -/
def runConnect (succeeds : ℕ → Bool) (maxRetry : ℤ) (fuel : ℕ) : Option ConnectResult :=
  if maxRetry < 0 then connectGoUnbounded succeeds 0 fuel
  else some (connectGo succeeds 0 (maxRetry.toNat + 1))

inductive ConnectEvent
  | attempt (i : ℕ)
  | sleep (d : ℚ)
deriving DecidableEq

/-- The observable trace of the bounded retry loop: each iteration is one
connect attempt, and each failed attempt is followed by an
`asyncio.sleep(self.retry_delay)` before the next one. -/
def connectTrace (succeeds : ℕ → Bool) (retryDelay : ℚ) : ℕ → ℕ → List ConnectEvent
  | _, 0 => []
  | i, b + 1 =>
    if succeeds i then [.attempt i]
    else .attempt i :: .sleep retryDelay :: connectTrace succeeds retryDelay (i + 1) b

/-! ### Sender loop (`ForwardWsConn._send_queue_watch`)

The queue is FIFO with the loop as its only consumer, so a run of the loop
processes the submitted actions in list order.  Per iteration the
scheduling environment contributes two nonnegative delays: `dequeueWait`
(time spent blocked in `queue.get()` plus `_conn_ready.wait()`) and
`hookDur` (time the awaited `ACTION_PRESEND` hook emission takes).  After
the hook completes the loop computes
`wait_time = cd_time - (time.time() - pre_send_time)`, sleeps that long
(`asyncio.sleep` of a nonpositive amount returns at once), transmits, and
only then stores `pre_send_time = time.time()`. -/

/-- The duration actually slept by `asyncio.sleep(w)`: a nonpositive
requested delay returns immediately. -/
def sleepClamp {K : Type} [LinearOrderedAddCommGroup K] (w : K) : K :=
  if w < 0 then 0 else w

structure SendEnv (K : Type) where
  dequeueWait : K
  hookDur : K
deriving DecidableEq

structure SendRec (K α : Type) where
  action : α
  hookDoneAt : K
  cooldownWait : K
  sentAt : K
deriving DecidableEq

/-- The sender loop on a list of queued actions, starting at clock `t` with
stored `pre_send_time` `p`.  Returns the per-iteration records and the
final value of `pre_send_time`. -/
def senderLoop {K α : Type} [LinearOrderedAddCommGroup K] (cdTime : K) :
    K → K → List (α × SendEnv K) → List (SendRec K α) × K
  | _, p, [] => ([], p)
  | t, p, (a, e) :: rest =>
    let t₁ := t + e.dequeueWait + e.hookDur
    let wait := cdTime - (t₁ - p)
    let t₂ := t₁ + sleepClamp wait
    let r := senderLoop cdTime t₂ t₂ rest
    (⟨a, t₁, wait, t₂⟩ :: r.1, r.2)

/-! ### Receive loop (`ForwardWsConn._listen`, main `while True:` body)

One `conn.recv()` outcome is either a raised `ConnectionClosed`, a raised
`asyncio.CancelledError`, or a text unit.  The decoder collaborator
(`_event_builder.build`) and the classifier (`event.is_resp_event()`) may
each raise; such exceptions are caught by the inner generic handler, which
logs the offending `raw_event` together with the local state, and the loop
continues.  `ConnectionClosed` is re-raised by the inner handler and, like
cancellation, terminates the loop. -/

inductive RecvUnit
  | closed
  | cancelled
  | unit (raw : String)
deriving DecidableEq

structure ListenEnv (ε M : Type) where
  build : String → Except ε M
  isResp : M → Except ε Bool

inductive IterOut (ε M : Type)
  | skipped
  | dispatched (resp : Bool) (e : M)
  | logged (raw : String) (err : ε)
  | exitClosed
  | exitCancelled
deriving DecidableEq

/-- Whether an iteration outcome terminates the `while True:` loop. -/
def IterOut.isExit {ε M : Type} : IterOut ε M → Bool
  | .exitClosed => true
  | .exitCancelled => true
  | _ => false

/-- One iteration of the receive loop body. -/
def listenIter {ε M : Type} (env : ListenEnv ε M) : RecvUnit → IterOut ε M
  | .closed => .exitClosed
  | .cancelled => .exitCancelled
  | .unit raw =>
    if raw = ("") then .skipped
    else
      match env.build raw with
      | .error e => .logged raw e
      | .ok event =>
        match env.isResp event with
        | .error e => .logged raw e
        | .ok true => .dispatched true event
        | .ok false => .dispatched false event

/-- The receive loop over a list of successive `recv` outcomes: the
non-exit iteration outcomes in order, and the exit reason if the loop
terminated within the list. -/
def listenLoop {ε M : Type} (env : ListenEnv ε M) :
    List RecvUnit → List (IterOut ε M) × Option (IterOut ε M)
  | [] => ([], none)
  | u :: rest =>
    let out := listenIter env u
    if out.isExit then ([], some out)
    else
      let r := listenLoop env rest
      (out :: r.1, r.2)

/-! ### Cooldown guard (`cooldown` decorator in `types/tools.py`)

The wrapped call is modelled as a state transformer over the decorator's
captured state (`alock`, `pre_finish_t`).  Callback and wrapped-function
outcomes are `Except ε α`: an `Except.error` models an exception
propagating to the caller.  `pre_finish_t` is updated only after the
wrapped function returns normally (a raised exception skips the
`pre_finish_t = time.time()` line). -/

structure CdState (K : Type) where
  locked : Bool
  preFinishT : K
deriving DecidableEq

inductive CdResult (K ε α : Type)
  | busy (out : Except ε α)
  | immediate (out : Except ε α)
  | cooldownCb (remain : K) (out : Except ε α)
  | sleptRan (remain : K) (out : Except ε α)

/-- One invocation of a `cooldown`-wrapped function.  `now` is the clock at
entry, `funcDur` the running time of the wrapped function, `func` its
outcome, `busyCb` the outcome of `busy_callback()`, and `cdCb` the optional
`cd_callback`, mapping the remaining cooldown to its outcome. -/
def cooldownCall {K ε α : Type} [LinearOrderedAddCommGroup K] (interval : K)
    (busyCb : Except ε α) (cdCb : Option (K → Except ε α)) (func : Except ε α)
    (funcDur : K) (now : K) (s : CdState K) : CdResult K ε α × CdState K :=
  if s.locked then (.busy busyCb, s)
  else
    let duration := now - s.preFinishT
    if duration > interval then
      match func with
      | .ok v => (.immediate (.ok v), { s with preFinishT := now + funcDur })
      | .error e => (.immediate (.error e), s)
    else
      let remain := interval - duration
      match cdCb with
      | some cb => (.cooldownCb remain (cb remain), s)
      | none =>
        match func with
        | .ok v => (.sleptRan remain (.ok v), { s with preFinishT := now + remain + funcDur })
        | .error e => (.sleptRan remain (.error e), s)

/-! ### Snowflake id generator (`IdWorker`)

The millisecond wall clock is a stream `clock : ℕ → ℕ` read once per
`__gen_timestamp()` call; `pos` counts reads made so far.  The busy-wait
`__til_next_millis` consumes reads until one strictly exceeds the recorded
timestamp; `fuel` bounds that spin (`none` models the spin still running).
`last_timestamp` is an integer because it is initialised to `-1`. -/

def SEQUENCE_MASK : ℕ := 4095

def WOKER_ID_SHIFT : ℕ := 12

def DATACENTER_ID_SHIFT : ℕ := 15

def TIMESTAMP_LEFT_SHIFT : ℕ := 20

def STARTEPOCH : ℕ := 1064980800000

structure IdWorker where
  datacenter_id : ℕ
  worker_id : ℕ
  sequence : ℕ
  last_timestamp : ℤ
deriving DecidableEq

/-- `IdWorker.__init__(datacenter_id, worker_id, sequence)` after its
sanity checks (`worker_id <= 7`, `datacenter_id <= 31`). -/
def IdWorker.init (datacenterId workerId sequence : ℕ) : Except Unit IdWorker :=
  if workerId > 7 then .error ()
  else if datacenterId > 31 then .error ()
  else .ok ⟨datacenterId, workerId, sequence, -1⟩

/-- The bit-packing of `get_id`:
`((timestamp - STARTEPOCH) << 20) | (datacenter_id << 15) | (worker_id << 12) | sequence`. -/
def mkId (ts dc wk seq : ℕ) : ℕ :=
  (((ts - STARTEPOCH) <<< TIMESTAMP_LEFT_SHIFT) ||| (dc <<< DATACENTER_ID_SHIFT)
      ||| (wk <<< WOKER_ID_SHIFT)) ||| seq

/-- `IdWorker.__til_next_millis(last_timestamp)`: keep reading the clock
while the reading is `<=` the recorded timestamp; return the first strictly
larger reading together with the new read position. -/
def tilNextMillis (clock : ℕ → ℕ) (last : ℤ) : ℕ → ℕ → Option (ℕ × ℕ)
  | _, 0 => none
  | pos, fuel + 1 =>
    let ts := clock pos
    if (ts : ℤ) ≤ last then tilNextMillis clock last (pos + 1) fuel
    else some (ts, pos + 1)

inductive GetIdResult
  | ok (id : ℕ) (w : IdWorker) (pos : ℕ)
  | rollback
  | outOfFuel
deriving DecidableEq

/-- `IdWorker.get_id`: raise on clock rollback; in the same millisecond as
the last id, step the sequence under `SEQUENCE_MASK` and busy-wait for the
next millisecond when it wraps to zero; in a fresh millisecond reset the
sequence to zero; then record `last_timestamp` and pack the id. -/
def get_id (clock : ℕ → ℕ) (fuel : ℕ) (w : IdWorker) (pos : ℕ) : GetIdResult :=
  let timestamp := clock pos
  let pos := pos + 1
  if (timestamp : ℤ) < w.last_timestamp then .rollback
  else if (timestamp : ℤ) = w.last_timestamp then
    let seq := (w.sequence + 1) &&& SEQUENCE_MASK
    if seq = 0 then
      match tilNextMillis clock w.last_timestamp pos fuel with
      | none => .outOfFuel
      | some (ts₂, pos₂) =>
        .ok (mkId ts₂ w.datacenter_id w.worker_id seq)
          { w with sequence := seq, last_timestamp := (ts₂ : ℤ) } pos₂
    else
      .ok (mkId timestamp w.datacenter_id w.worker_id seq)
        { w with sequence := seq, last_timestamp := (timestamp : ℤ) } pos
  else
    .ok (mkId timestamp w.datacenter_id w.worker_id 0)
      { w with sequence := 0, last_timestamp := (timestamp : ℤ) } pos

/-- `n` successive `get_id` calls; `none` when any call raises or the spin
does not finish within `fuel`. -/
def runGetIds (clock : ℕ → ℕ) (fuel : ℕ) : ℕ → IdWorker → ℕ → Option (List ℕ × IdWorker × ℕ)
  | 0, w, pos => some ([], w, pos)
  | n + 1, w, pos =>
    match get_id clock fuel w pos with
    | .ok id w₂ pos₂ =>
      match runGetIds clock fuel n w₂ pos₂ with
      | some (ids, w₃, pos₃) => some (id :: ids, w₃, pos₃)
      | none => none
    | _ => none

/-- The id that the recorded state of a worker packs to: every id returned
by `get_id` equals `stateId` of the post-call state. -/
def stateId (w : IdWorker) : ℕ :=
  mkId w.last_timestamp.toNat w.datacenter_id w.worker_id w.sequence

/-! ## Theorems -/

/-- Every single `set`/`clear` on a bound pair leaves exactly one of the
two events set. -/
theorem twinApply_exactlyOne (s : TwinState) (op : TwinOp) :
    exactlyOne (twinApply s op) = true := by
  cases op <;> rfl

theorem foldl_twinApply_exactlyOne (ops : List TwinOp) (s : TwinState)
    (h : exactlyOne s = true) :
    exactlyOne (List.foldl twinApply s ops) = true := by
  induction ops generalizing s with
  | nil => exact h
  | cons op rest ih => exact ih (twinApply s op) (twinApply_exactlyOne s op)

/-- C7: `get_twin_event` returns the first event unset and the second set,
setting either member of the pair clears its partner, clearing either sets
its partner, and after any finite sequence of `set`/`clear` calls on the
pair exactly one of the two events is set. -/
theorem claim_C7_twin_events :
    get_twin_event.aSet = false ∧ get_twin_event.bSet = true
    ∧ (∀ s : TwinState,
        (twinApply s .setA).bSet = false ∧ (twinApply s .setB).aSet = false
        ∧ (twinApply s .clearA).bSet = true ∧ (twinApply s .clearB).aSet = true)
    ∧ ∀ ops : List TwinOp,
        exactlyOne (List.foldl twinApply get_twin_event ops) = true := by
  refine ⟨rfl, rfl, fun s => ⟨rfl, rfl, rfl, rfl⟩, fun ops => ?_⟩
  exact foldl_twinApply_exactlyOne ops get_twin_event rfl

/-- C5: `_close` is idempotent.  A second invocation after the close future
is resolved returns without error, changes no state, and performs no
teardown side effect. -/
theorem claim_C5_close_idempotent (s : ConnState) :
    closeConn (closeConn s).1 = ((closeConn s).1, false) := by
  unfold closeConn
  by_cases h : s.clientCloseDone <;> simp [h]

/-- C4: once `_close` has run, the close future is resolved, the
`finally:` block of `_listen` exits quietly without calling `_reconnect`,
and (when the close future was not already resolved) `_allow_reconn` has
been forced to `False`. -/
theorem claim_C4_no_reconnect_after_close (s : ConnState) :
    (closeConn s).1.clientCloseDone = true
    ∧ listenFinally (closeConn s).1 = ((closeConn s).1, .quiet)
    ∧ (s.clientCloseDone = false → (closeConn s).1.allowReconn = false) := by
  unfold closeConn listenFinally
  by_cases h : s.clientCloseDone <;> simp [h]

/-- Witness for C4 at a concrete pre-close state. -/
theorem claim_C4_witness :
    (closeConn ⟨false, true, false, true⟩).1.clientCloseDone = true
    ∧ listenFinally (closeConn ⟨false, true, false, true⟩).1
        = ((closeConn ⟨false, true, false, true⟩).1, .quiet)
    ∧ (closeConn ⟨false, true, false, true⟩).1.allowReconn = false := by
  have h := claim_C4_no_reconnect_after_close ⟨false, true, false, true⟩
  exact ⟨h.1, h.2.1, h.2.2 rfl⟩

theorem dget_dinsert_same {α : Type} (k : String) (v : α) (l : List (String × α)) :
    dget k (dinsert k v l) = some v := by
  induction l with
  | nil => simp [dinsert, dget]
  | cons kv rest ih =>
    obtain ⟨k₂, v₂⟩ := kv
    by_cases h : k₂ = k <;> simp [dinsert, dget, h, ih]

/-- C10: `flag_check` with the default `val = None` succeeds exactly when
the flag exists and its stored value is `None`; marking with a non-`None`
value and then checking with the default yields `False` although the flag
is present. -/
theorem claim_C10_flag_check_default {V : Type} [DecidableEq V] (store : FlagStore V)
    (ns flagName : String) (v : V) :
    (flag_check store ns flagName none = true ↔ flagAt store ns flagName = some none)
    ∧ ∀ store₂, mark store ns flagName (some v) = .ok store₂ →
        flag_check store₂ ns flagName none = false
        ∧ (flagAt store₂ ns flagName).isSome = true := by
  constructor
  · unfold flag_check flagAt
    cases store with
    | none => simp
    | some s =>
      cases hns : dget ns s with
      | none => simp [hns]
      | some flags =>
        cases hfl : dget flagName flags with
        | none => simp [hns, hfl]
        | some flag => cases flag <;> simp [hns, hfl]
  · intro store₂ h
    unfold mark at h
    dsimp only at h
    cases hfl : dget flagName ((dget ns (match store with | none => [] | some s => s)).getD []) with
    | some w => rw [hfl] at h; exact absurd h (by simp)
    | none =>
      rw [hfl] at h
      simp only [Except.ok.injEq] at h
      subst h
      simp [flag_check, flagAt, dget_dinsert_same]

theorem connectGo_allFail (succeeds : ℕ → Bool) (hfail : ∀ i, succeeds i = false) :
    ∀ b i, connectGo succeeds i b = .connectFailed (i + b) := by
  intro b
  induction b with
  | zero => intro i; rfl
  | succ b ih =>
    intro i
    simp only [connectGo, hfail i, Bool.false_eq_true, if_false, ih (i + 1),
      ConnectResult.connectFailed.injEq]
    omega

theorem connectGoUnbounded_allFail (succeeds : ℕ → Bool) (hfail : ∀ i, succeeds i = false) :
    ∀ f i, connectGoUnbounded succeeds i f = none := by
  intro f
  induction f with
  | zero => intro i; rfl
  | succ f ih =>
    intro i
    simp only [connectGoUnbounded, hfail i, Bool.false_eq_true, if_false]
    exact ih (i + 1)

theorem connectTrace_allFail (succeeds : ℕ → Bool) (d : ℚ) (hfail : ∀ i, succeeds i = false) :
    ∀ b i, connectTrace succeeds d i b
      = (List.range' i b).flatMap (fun j => [.attempt j, .sleep d]) := by
  intro b
  induction b with
  | zero => intro i; rfl
  | succ b ih =>
    intro i
    simp only [connectTrace, hfail i, Bool.false_eq_true, if_false, List.range'_succ,
      List.flatMap_cons, ih (i + 1)]
    rfl

theorem connectGo_failed_attempts (s₂ : ℕ → Bool) :
    ∀ b i k, connectGo s₂ i b = .connectFailed k → k = i + b := by
  intro b
  induction b with
  | zero =>
    intro i k h
    simp only [connectGo, ConnectResult.connectFailed.injEq] at h
    omega
  | succ b ih =>
    intro i k h
    by_cases hs : s₂ i = true
    · simp [connectGo, hs] at h
    · simp only [connectGo, Bool.not_eq_true] at hs
      simp only [connectGo, hs, if_false] at h
      have := ih (i + 1) k h
      omega

theorem connectGo_failed_iff (s₂ : ℕ → Bool) :
    ∀ b i, (∃ k, connectGo s₂ i b = .connectFailed k)
      ↔ ∀ j, i ≤ j → j < i + b → s₂ j = false := by
  intro b
  induction b with
  | zero =>
    intro i
    constructor
    · intro _ j hij hj
      omega
    · intro _
      exact ⟨i, rfl⟩
  | succ b ih =>
    intro i
    cases hs : s₂ i with
    | true =>
      simp only [connectGo, hs, if_true]
      constructor
      · rintro ⟨k, hk⟩
        exact absurd hk (by simp)
      · intro hall
        have := hall i (le_refl i) (by omega)
        rw [hs] at this
        exact absurd this (by simp)
    | false =>
      simp only [connectGo, hs, Bool.false_eq_true, if_false]
      rw [ih (i + 1)]
      constructor
      · intro hall j hij hj
        rcases Nat.eq_or_lt_of_le hij with h | h
        · rw [← h]; exact hs
        · exact hall j h (by omega)
      · intro hall j hij hj
        exact hall j (by omega) (by omega)

/-- C1: against an endpoint whose open always fails, `_run` with
`max_retry = m >= 0` makes exactly `m + 1` connect attempts with an
`asyncio.sleep(retry_delay)` between consecutive attempts and then raises
`BotConnectFailed`; with `max_retry < 0` it retries without bound and never
raises; and within a bounded budget it raises exactly when every attempt in
the budget fails. -/
theorem claim_C1_connect_retry (succeeds : ℕ → Bool) (m fuel : ℕ) (d : ℚ)
    (hfail : ∀ i, succeeds i = false) :
    runConnect succeeds (m : ℤ) fuel = some (.connectFailed (m + 1))
    ∧ connectTrace succeeds d 0 (m + 1)
        = (List.range (m + 1)).flatMap (fun i => [.attempt i, .sleep d])
    ∧ (∀ mneg : ℤ, mneg < 0 → runConnect succeeds mneg fuel = none)
    ∧ (∀ s₂ : ℕ → Bool,
        (∃ k, connectGo s₂ 0 (m + 1) = .connectFailed k) ↔ ∀ i < m + 1, s₂ i = false)
    ∧ (∀ s₂ : ℕ → Bool, ∀ k, connectGo s₂ 0 (m + 1) = .connectFailed k → k = m + 1) := by
  refine ⟨?_, ?_, ?_, ?_, ?_⟩
  · unfold runConnect
    rw [if_neg (by omega)]
    simp only [Int.toNat_natCast]
    rw [connectGo_allFail succeeds hfail (m + 1) 0]
    simp
  · rw [connectTrace_allFail succeeds d hfail (m + 1) 0, List.range_eq_range']
  · intro mneg hneg
    unfold runConnect
    rw [if_pos hneg]
    exact connectGoUnbounded_allFail succeeds hfail fuel 0
  · intro s₂
    rw [connectGo_failed_iff s₂ (m + 1) 0]
    constructor
    · intro h j hj; exact h j (Nat.zero_le j) (by omega)
    · intro h j _ hj; exact h j (by omega)
  · intro s₂ k h
    have := connectGo_failed_attempts s₂ (m + 1) 0 k h
    omega

/-- Witness for C1: a permanently failing endpoint with `max_retry = 2`
yields three attempts then failure, and with `max_retry = -1` the loop is
still running after any number of observed iterations. -/
theorem claim_C1_witness :
    runConnect (fun _ => false) ((2 : ℕ) : ℤ) 5 = some (.connectFailed 3)
    ∧ runConnect (fun _ => false) (-1) 5 = none := by
  have h := claim_C1_connect_retry (fun _ => false) 2 5 1 (fun _ => rfl)
  exact ⟨h.1, h.2.2.1 (-1) (by decide)⟩

theorem le_sleepClamp {K : Type} [LinearOrderedAddCommGroup K] (w : K) : w ≤ sleepClamp w := by
  unfold sleepClamp
  split
  · exact le_of_lt (by assumption)
  · exact le_refl w

theorem sleepClamp_nonneg {K : Type} [LinearOrderedAddCommGroup K] (w : K) :
    0 ≤ sleepClamp w := by
  unfold sleepClamp
  split
  · exact le_refl 0
  · exact le_of_not_lt (by assumption)

theorem senderLoop_fifo {K α : Type} [LinearOrderedAddCommGroup K] (cdTime : K) :
    ∀ (xs : List (α × SendEnv K)) (t p : K),
      ((senderLoop cdTime t p xs).1.map SendRec.action) = xs.map Prod.fst := by
  intro xs
  induction xs with
  | nil => intro t p; rfl
  | cons x rest ih =>
    intro t p
    obtain ⟨a, e⟩ := x
    simp only [senderLoop, List.map_cons]
    rw [ih]

theorem senderLoop_head_sent {K α : Type} [LinearOrderedAddCommGroup K] (cdTime : K)
    (xs : List (α × SendEnv K)) (t p : K) :
    ∀ r ∈ (senderLoop cdTime t p xs).1.head?, p + cdTime ≤ r.sentAt := by
  intro r hr
  cases xs with
  | nil => simp [senderLoop] at hr
  | cons x rest =>
    obtain ⟨a, e⟩ := x
    simp only [senderLoop, List.head?, Option.mem_def, Option.some.injEq] at hr
    subst hr
    simp only
    have h₁ : p + cdTime
        = (t + e.dequeueWait + e.hookDur) + (cdTime - (t + e.dequeueWait + e.hookDur - p)) := by
      abel
    rw [h₁]
    exact add_le_add_left (le_sleepClamp _) _

theorem senderLoop_chain {K α : Type} [LinearOrderedAddCommGroup K] (cdTime : K) :
    ∀ (xs : List (α × SendEnv K)) (t p : K),
      List.Chain' (fun r r₂ => r.sentAt + cdTime ≤ r₂.sentAt) (senderLoop cdTime t p xs).1 := by
  intro xs
  induction xs with
  | nil => intro t p; exact List.chain'_nil
  | cons x rest ih =>
    intro t p
    obtain ⟨a, e⟩ := x
    simp only [senderLoop]
    rw [List.chain'_cons']
    constructor
    · intro y hy
      have := senderLoop_head_sent cdTime rest _ _ y hy
      simpa using this
    · exact ih _ _

theorem senderLoop_final {K α : Type} [LinearOrderedAddCommGroup K] (cdTime : K) :
    ∀ (xs : List (α × SendEnv K)) (t p : K),
      (senderLoop cdTime t p xs).2 = ((senderLoop cdTime t p xs).1.map SendRec.sentAt).getLastD p := by
  intro xs
  induction xs with
  | nil => intro t p; rfl
  | cons x rest ih =>
    intro t p
    obtain ⟨a, e⟩ := x
    simp only [senderLoop, List.map_cons, List.getLastD_cons]
    exact ih _ _

/-- C2: the sender loop transmits queued actions in exactly submission
order, consecutive physical transmissions are at least `cd_time` apart,
and the `pre_send_time` stored after a run equals the time of the last
transmission (or its initial value when nothing was sent). -/
theorem claim_C2_sender_order_and_gap {K α : Type} [LinearOrderedAddCommGroup K]
    (cdTime t p : K) (xs : List (α × SendEnv K)) :
    ((senderLoop cdTime t p xs).1.map SendRec.action) = xs.map Prod.fst
    ∧ List.Chain' (fun r r₂ => r.sentAt + cdTime ≤ r₂.sentAt) (senderLoop cdTime t p xs).1
    ∧ (senderLoop cdTime t p xs).2 = ((senderLoop cdTime t p xs).1.map SendRec.sentAt).getLastD p :=
  ⟨senderLoop_fifo cdTime xs t p, senderLoop_chain cdTime xs t p, senderLoop_final cdTime xs t p⟩

/-- C3: in each iteration of the sender loop the pre-send hook is awaited
to completion strictly before the cooldown remainder is computed: the
remainder is `cd_time - (hookDoneAt - pre_send_time)`, the transmission
happens `sleepClamp remainder` after the hook completes, and therefore a
hook slower than `cd_time` extends the gap before transmission beyond
`cd_time`. -/
theorem claim_C3_hook_before_cooldown {K α : Type} [LinearOrderedAddCommGroup K]
    (cdTime t p : K) (a : α) (e : SendEnv K) (rest : List (α × SendEnv K)) :
    ∀ r recs, (senderLoop cdTime t p ((a, e) :: rest)).1 = r :: recs →
      r.hookDoneAt = t + e.dequeueWait + e.hookDur
      ∧ r.cooldownWait = cdTime - (r.hookDoneAt - p)
      ∧ r.sentAt = r.hookDoneAt + sleepClamp r.cooldownWait
      ∧ (cdTime < e.hookDur → p ≤ t + e.dequeueWait → cdTime < r.sentAt - p) := by
  intro r recs h
  simp only [senderLoop, List.cons.injEq] at h
  obtain ⟨hr, _⟩ := h
  subst hr
  refine ⟨rfl, by simp only, by simp only, ?_⟩
  intro hslow harrive
  simp only
  have h₂ : p + cdTime < t + e.dequeueWait + e.hookDur := add_lt_add_of_le_of_lt harrive hslow
  have h₃ : t + e.dequeueWait + e.hookDur
      ≤ t + e.dequeueWait + e.hookDur + sleepClamp (cdTime - (t + e.dequeueWait + e.hookDur - p)) :=
    le_add_of_nonneg_right (sleepClamp_nonneg _)
  rw [lt_sub_iff_add_lt, add_comm]
  exact lt_of_lt_of_le h₂ h₃

/-- Witness for C3: a hook that takes 2 time units under `cd_time = 1`
pushes the gap before the transmission to 2. -/
theorem claim_C3_witness :
    (SendRec.hookDoneAt (K := ℤ) (α := ℕ) ⟨0, 2, -1, 2⟩ = 0 + 0 + 2)
    ∧ (SendRec.cooldownWait (K := ℤ) (α := ℕ) ⟨0, 2, -1, 2⟩ = 1 - (2 - 0))
    ∧ (SendRec.sentAt (K := ℤ) (α := ℕ) ⟨0, 2, -1, 2⟩ = 2 + sleepClamp (-1 : ℤ))
    ∧ ((1 : ℤ) < SendRec.sentAt (K := ℤ) (α := ℕ) ⟨0, 2, -1, 2⟩ - 0) := by
  have h := claim_C3_hook_before_cooldown (K := ℤ) (α := ℕ) 1 0 0 0 ⟨0, 2⟩ []
    ⟨0, 2, -1, 2⟩ [] (by decide)
  exact ⟨by decide, by decide, by decide, h.2.2.2 (by decide) (by decide)⟩

theorem listenIter_unit_not_exit {ε M : Type} (env : ListenEnv ε M) (raw : String) :
    (listenIter env (.unit raw)).isExit = false := by
  simp only [listenIter]
  split
  · rfl
  · cases h : env.build raw with
    | error e => simp [h, IterOut.isExit]
    | ok x =>
      cases h₂ : env.isResp x with
      | error e => simp [h, h₂, IterOut.isExit]
      | ok b => cases b <;> simp [h, h₂, IterOut.isExit]

theorem listenLoop_exit_source {ε M : Type} (env : ListenEnv ε M) :
    ∀ (us : List RecvUnit) (r : IterOut ε M), (listenLoop env us).2 = some r →
      (r = .exitClosed ∧ RecvUnit.closed ∈ us)
      ∨ (r = .exitCancelled ∧ RecvUnit.cancelled ∈ us) := by
  intro us
  induction us with
  | nil => intro r h; exact absurd h (by simp [listenLoop])
  | cons u rest ih =>
    intro r h
    cases u with
    | closed =>
      left
      simp only [listenLoop, listenIter, IterOut.isExit, if_true] at h
      simp only [Option.some.injEq] at h
      exact ⟨h.symm, by simp⟩
    | cancelled =>
      right
      simp only [listenLoop, listenIter, IterOut.isExit, if_true] at h
      simp only [Option.some.injEq] at h
      exact ⟨h.symm, by simp⟩
    | unit raw =>
      have hex := listenIter_unit_not_exit env raw
      simp only [listenLoop, hex, Bool.false_eq_true, if_false] at h
      rcases ih r h with ⟨hr, hmem⟩ | ⟨hr, hmem⟩
      · exact Or.inl ⟨hr, List.mem_cons_of_mem _ hmem⟩
      · exact Or.inr ⟨hr, List.mem_cons_of_mem _ hmem⟩

/-- C6: in the receive loop an empty raw unit is skipped without error or
dispatch; an exception from the decoder or from classification of a
non-empty unit produces a log entry carrying the offending raw payload and
the loop continues with the remaining units; only connection closure or
cancellation terminates the loop. -/
theorem claim_C6_listen_resilience {ε M : Type} (env : ListenEnv ε M) (us : List RecvUnit) :
    listenIter env (.unit ("")) = .skipped
    ∧ (∀ raw e₂, raw ≠ ("") → env.build raw = .error e₂ →
        listenIter env (.unit raw) = .logged raw e₂)
    ∧ (∀ raw x e₂, raw ≠ ("") → env.build raw = .ok x → env.isResp x = .error e₂ →
        listenIter env (.unit raw) = .logged raw e₂)
    ∧ (∀ (u : RecvUnit) (rest : List RecvUnit), (listenIter env u).isExit = false →
        listenLoop env (u :: rest)
          = (listenIter env u :: (listenLoop env rest).1, (listenLoop env rest).2))
    ∧ (∀ r : IterOut ε M, (listenLoop env us).2 = some r →
        (r = .exitClosed ∧ RecvUnit.closed ∈ us)
        ∨ (r = .exitCancelled ∧ RecvUnit.cancelled ∈ us)) := by
  refine ⟨rfl, ?_, ?_, ?_, listenLoop_exit_source env us⟩
  · intro raw e₂ hraw hbuild
    simp only [listenIter]
    rw [if_neg hraw, hbuild]
  · intro raw x e₂ hraw hbuild hresp
    simp only [listenIter]
    rw [if_neg hraw, hbuild]
    dsimp only
    rw [hresp]
  · intro u rest hex
    simp only [listenLoop, hex, Bool.false_eq_true, if_false]

/-- Witness for C6 with a concrete decoder that only accepts the payload
`x`: the empty unit is skipped, a malformed unit is logged and the loop
continues past it, and a closed connection ends the loop. -/
theorem claim_C6_witness :
    listenIter (ε := Unit) (M := Bool)
        ⟨fun raw => if raw = ("x") then .ok true else .error (), fun b => .ok b⟩
        (.unit ("")) = .skipped
    ∧ listenIter (ε := Unit) (M := Bool)
        ⟨fun raw => if raw = ("x") then .ok true else .error (), fun b => .ok b⟩
        (.unit ("y")) = .logged ("y") ()
    ∧ listenLoop (ε := Unit) (M := Bool)
        ⟨fun raw => if raw = ("x") then .ok true else .error (), fun b => .ok b⟩
        (.unit ("y") :: [.closed])
        = (listenIter (ε := Unit) (M := Bool)
            ⟨fun raw => if raw = ("x") then .ok true else .error (), fun b => .ok b⟩
            (.unit ("y"))
            :: (listenLoop (ε := Unit) (M := Bool)
                ⟨fun raw => if raw = ("x") then .ok true else .error (), fun b => .ok b⟩
                [.closed]).1,
          (listenLoop (ε := Unit) (M := Bool)
            ⟨fun raw => if raw = ("x") then .ok true else .error (), fun b => .ok b⟩
            [.closed]).2)
    ∧ (((IterOut.exitClosed : IterOut Unit Bool) = .exitClosed
          ∧ RecvUnit.closed ∈ [RecvUnit.closed])
        ∨ ((IterOut.exitClosed : IterOut Unit Bool) = .exitCancelled
          ∧ RecvUnit.cancelled ∈ [RecvUnit.closed])) := by
  have h := claim_C6_listen_resilience (ε := Unit) (M := Bool)
    ⟨fun raw => if raw = ("x") then .ok true else .error (), fun b => .ok b⟩ [.closed]
  exact ⟨h.1, h.2.1 ("y") () (by decide) rfl, h.2.2.2.1 (.unit ("y")) [.closed] rfl,
    h.2.2.2.2 .exitClosed rfl⟩

/-- C9: when the guarded operation is free and the call arrives before
`interval` has elapsed since the last completed call, a given
`cd_callback` is invoked with exactly the remaining wait
`interval - (now - pre_finish_t)` and its outcome — including a raised
exception — is returned to the caller unchanged with no state update;
without a `cd_callback` the call sleeps the remainder and then runs the
wrapped function. -/
theorem claim_C9_cooldown_path {K ε α : Type} [LinearOrderedAddCommGroup K] (interval : K)
    (busyCb : Except ε α) (cdCb : Option (K → Except ε α)) (func : Except ε α)
    (funcDur now : K) (s : CdState K)
    (hfree : s.locked = false) (hearly : now - s.preFinishT < interval) :
    (∀ cb, cdCb = some cb →
        cooldownCall interval busyCb cdCb func funcDur now s
          = (.cooldownCb (interval - (now - s.preFinishT)) (cb (interval - (now - s.preFinishT))),
            s))
    ∧ (∀ cb e₂, cdCb = some cb → cb (interval - (now - s.preFinishT)) = .error e₂ →
        (cooldownCall interval busyCb cdCb func funcDur now s).1
          = .cooldownCb (interval - (now - s.preFinishT)) (.error e₂))
    ∧ (cdCb = none →
        (cooldownCall interval busyCb cdCb func funcDur now s).1
          = .sleptRan (interval - (now - s.preFinishT)) func) := by
  have hmain : ∀ cb, cdCb = some cb →
      cooldownCall interval busyCb cdCb func funcDur now s
        = (.cooldownCb (interval - (now - s.preFinishT)) (cb (interval - (now - s.preFinishT))),
          s) := by
    intro cb hcb
    unfold cooldownCall
    rw [hfree, hcb]
    simp only [Bool.false_eq_true, if_false]
    rw [if_neg (not_lt.mpr (le_of_lt hearly))]
  refine ⟨hmain, ?_, ?_⟩
  · intro cb e₂ hcb herr
    rw [hmain cb hcb]
    simp only
    rw [herr]
  · intro hcb
    unfold cooldownCall
    rw [hfree, hcb]
    simp only [Bool.false_eq_true, if_false]
    rw [if_neg (not_lt.mpr (le_of_lt hearly))]
    cases func <;> rfl

/-- Witness for C9 over integer time: `interval = 5`, last finish at `0`,
call at `3`, so the remainder is `2`; the failing `cd_callback` outcome is
returned unchanged, and with no `cd_callback` the wrapped function runs
after the remainder. -/
theorem claim_C9_witness :
    cooldownCall (K := ℤ) (ε := Unit) (α := ℕ) 5 (.ok 0) (some fun _ => .error ()) (.ok 7) 1 3
        ⟨false, 0⟩
      = (.cooldownCb (5 - (3 - 0)) (.error ()), ⟨false, 0⟩)
    ∧ (cooldownCall (K := ℤ) (ε := Unit) (α := ℕ) 5 (.ok 0) none (.ok 7) 1 3 ⟨false, 0⟩).1
      = .sleptRan (5 - (3 - 0)) (.ok 7) := by
  have h₁ := claim_C9_cooldown_path (K := ℤ) (ε := Unit) (α := ℕ) 5 (.ok 0)
    (some fun _ => .error ()) (.ok 7) 1 3 ⟨false, 0⟩ rfl (by decide)
  have h₂ := claim_C9_cooldown_path (K := ℤ) (ε := Unit) (α := ℕ) 5 (.ok 0) none (.ok 7) 1 3
    ⟨false, 0⟩ rfl (by decide)
  exact ⟨h₁.1 (fun _ => .error ()) rfl, h₂.2.2 rfl⟩

/-- Witness for C10: mark an object with the non-`None` value `1`, then
check with the default value. -/
theorem claim_C10_witness :
    flag_check (V := ℕ) (some [(("a"), [(("b"), some 1)])]) ("a") ("b") none = false
    ∧ (flagAt (V := ℕ) (some [(("a"), [(("b"), some 1)])]) ("a") ("b")).isSome = true := by
  exact (claim_C10_flag_check_default (V := ℕ) none ("a") ("b") 1).2
    (some [(("a"), [(("b"), some 1)])]) rfl

theorem and_mask_eq_mod (s : ℕ) : s &&& 4095 = s % 4096 := by
  have h₁ : (4095 : ℕ) = 2 ^ 12 - 1 := by norm_num
  have h₂ : (4096 : ℕ) = 2 ^ 12 := by norm_num
  rw [h₁, h₂]
  apply Nat.eq_of_testBit_eq
  intro i
  rw [Nat.testBit_and, Nat.testBit_two_pow_sub_one, Nat.testBit_mod_two_pow]
  exact Bool.and_comm _ _

theorem seq_mask_step (s : ℕ) (h : s ≤ 4095) :
    (s + 1) &&& SEQUENCE_MASK = if s = 4095 then 0 else s + 1 := by
  unfold SEQUENCE_MASK
  rw [and_mask_eq_mod]
  split
  · omega
  · omega

/-- Under the field bounds, the bit-packing of `get_id` is the positional
sum of its fields. -/
theorem mkId_eq (ts dc wk seq : ℕ) (hdc : dc ≤ 31) (hwk : wk ≤ 7) (hseq : seq ≤ 4095) :
    mkId ts dc wk seq
      = (ts - STARTEPOCH) * 2 ^ 20 + (dc * 2 ^ 15 + (wk * 2 ^ 12 + seq)) := by
  have hs : seq < 2 ^ 12 := lt_of_le_of_lt hseq (by norm_num)
  have h₂ : 2 ^ 12 * wk + seq < 2 ^ 15 := by
    have hp : (2 : ℕ) ^ 12 = 4096 := by norm_num
    have hq : (2 : ℕ) ^ 15 = 32768 := by norm_num
    rw [hp, hq]
    omega
  have h₁ : 2 ^ 15 * dc + (2 ^ 12 * wk + seq) < 2 ^ 20 := by
    have hp : (2 : ℕ) ^ 12 = 4096 := by norm_num
    have hq : (2 : ℕ) ^ 15 = 32768 := by norm_num
    have hr : (2 : ℕ) ^ 20 = 1048576 := by norm_num
    rw [hp, hq, hr]
    omega
  unfold mkId TIMESTAMP_LEFT_SHIFT DATACENTER_ID_SHIFT WOKER_ID_SHIFT
  rw [Nat.or_assoc, Nat.or_assoc, Nat.shiftLeft_eq, Nat.shiftLeft_eq, Nat.shiftLeft_eq,
    mul_comm (ts - STARTEPOCH), mul_comm dc, mul_comm wk,
    ← Nat.mul_add_lt_is_or hs wk, ← Nat.mul_add_lt_is_or h₂ dc,
    ← Nat.mul_add_lt_is_or h₁ (ts - STARTEPOCH)]

/-- Strict growth of the packed id in the timestamp field. -/
theorem mkId_lt_of_ts_lt (ts ts₂ dc wk seq seq₂ : ℕ) (hdc : dc ≤ 31) (hwk : wk ≤ 7)
    (hseq : seq ≤ 4095) (hseq₂ : seq₂ ≤ 4095) (hepoch : STARTEPOCH ≤ ts) (hts : ts < ts₂) :
    mkId ts dc wk seq < mkId ts₂ dc wk seq₂ := by
  rw [mkId_eq ts dc wk seq hdc hwk hseq, mkId_eq ts₂ dc wk seq₂ hdc hwk hseq₂]
  have hp : (2 : ℕ) ^ 12 = 4096 := by norm_num
  have hq : (2 : ℕ) ^ 15 = 32768 := by norm_num
  have hr : (2 : ℕ) ^ 20 = 1048576 := by norm_num
  rw [hp, hq, hr]
  unfold STARTEPOCH at hepoch ⊢
  omega

/-- Strict growth of the packed id in the sequence field. -/
theorem mkId_lt_of_seq_lt (ts dc wk seq seq₂ : ℕ) (hdc : dc ≤ 31) (hwk : wk ≤ 7)
    (hseq : seq ≤ 4095) (hseq₂ : seq₂ ≤ 4095) (hlt : seq < seq₂) :
    mkId ts dc wk seq < mkId ts dc wk seq₂ := by
  rw [mkId_eq ts dc wk seq hdc hwk hseq, mkId_eq ts dc wk seq₂ hdc hwk hseq₂]
  omega

/-- The busy-wait returns the first clock reading strictly above the
recorded timestamp: every reading it consumed before the returned one was
still `<=` the recorded timestamp. -/
theorem tilNextMillis_spec (clock : ℕ → ℕ) (last : ℤ) :
    ∀ (fuel pos ts₂ pos₂ : ℕ), tilNextMillis clock last pos fuel = some (ts₂, pos₂) →
      last < (ts₂ : ℤ) ∧ pos < pos₂ ∧ ts₂ = clock (pos₂ - 1)
      ∧ ∀ k, pos ≤ k → k < pos₂ - 1 → (clock k : ℤ) ≤ last := by
  intro fuel
  induction fuel with
  | zero =>
    intro pos ts₂ pos₂ h
    exact absurd h (by simp [tilNextMillis])
  | succ fuel ih =>
    intro pos ts₂ pos₂ h
    simp only [tilNextMillis] at h
    by_cases hc : (clock pos : ℤ) ≤ last
    · rw [if_pos hc] at h
      obtain ⟨h₁, h₂, h₃, h₄⟩ := ih (pos + 1) ts₂ pos₂ h
      refine ⟨h₁, by omega, h₃, ?_⟩
      intro k hk₁ hk₂
      rcases Nat.eq_or_lt_of_le hk₁ with he | hl
      · rw [← he]; exact hc
      · exact h₄ k hl hk₂
    · rw [if_neg hc] at h
      simp only [Option.some.injEq, Prod.mk.injEq] at h
      obtain ⟨h₁, h₂⟩ := h
      subst h₁
      subst h₂
      refine ⟨not_le.mp hc, by omega, by simp, ?_⟩
      intro k hk₁ hk₂
      omega

/-- One successful `get_id` call: the returned id packs the new state, the
static fields are unchanged, the sequence stays in range, the new recorded
timestamp is a clock reading at or above the epoch, the read position
advances, and from any epoch-reachable state the packed state id strictly
increases. -/
theorem get_id_ok_spec (clock : ℕ → ℕ) (fuel : ℕ) (w : IdWorker) (pos : ℕ)
    (hdc : w.datacenter_id ≤ 31) (hwk : w.worker_id ≤ 7) (hseq : w.sequence ≤ 4095)
    (hepoch : ∀ i, STARTEPOCH ≤ clock i) :
    ∀ id w₂ pos₂, get_id clock fuel w pos = .ok id w₂ pos₂ →
      id = stateId w₂
      ∧ w₂.datacenter_id = w.datacenter_id ∧ w₂.worker_id = w.worker_id
      ∧ w₂.sequence ≤ 4095
      ∧ (STARTEPOCH : ℤ) ≤ w₂.last_timestamp
      ∧ pos < pos₂
      ∧ ((STARTEPOCH : ℤ) ≤ w.last_timestamp → stateId w < stateId w₂) := by
  intro id w₂ pos₂ h
  unfold get_id at h
  dsimp only at h
  by_cases h₁ : (clock pos : ℤ) < w.last_timestamp
  · rw [if_pos h₁] at h
    exact absurd h (by simp)
  · rw [if_neg h₁] at h
    by_cases h₂ : (clock pos : ℤ) = w.last_timestamp
    · rw [if_pos h₂] at h
      have hmask := seq_mask_step w.sequence hseq
      by_cases hs4 : w.sequence = 4095
      · rw [if_pos (by rw [hmask, if_pos hs4])] at h
        cases htnm : tilNextMillis clock w.last_timestamp (pos + 1) fuel with
        | none => rw [htnm] at h; exact absurd h (by simp)
        | some r =>
          obtain ⟨ts₂, pos₂h⟩ := r
          rw [htnm] at h
          simp only [GetIdResult.ok.injEq] at h
          obtain ⟨hid, hw₂, hpos₂⟩ := h
          obtain ⟨hl₁, hl₂, hl₃, _⟩ := tilNextMillis_spec clock w.last_timestamp fuel
            (pos + 1) ts₂ pos₂h htnm
          have hts₂e : STARTEPOCH ≤ ts₂ := by rw [hl₃]; exact hepoch _
          subst hw₂
      -- the new state records the strictly later millisecond with sequence 0
          refine ⟨?_, rfl, rfl, ?_, ?_, by omega, ?_⟩
          · rw [← hid]
            unfold stateId
            simp only [Int.toNat_natCast]
          · simp only [hmask, if_pos hs4]
            omega
          · simp only
            exact Int.ofNat_le.mpr hts₂e
          · intro hle
            unfold stateId
            simp only [Int.toNat_natCast, hmask, if_pos hs4]
            exact mkId_lt_of_ts_lt w.last_timestamp.toNat ts₂ _ _ w.sequence 0 hdc hwk hseq
              (by omega) (by omega) (by omega)
      · rw [if_neg (by rw [hmask, if_neg hs4]; omega)] at h
        simp only [GetIdResult.ok.injEq] at h
        obtain ⟨hid, hw₂, hpos₂⟩ := h
        subst hw₂
        refine ⟨?_, rfl, rfl, ?_, ?_, by omega, ?_⟩
        · rw [← hid]
          unfold stateId
          simp only [Int.toNat_natCast]
        · simp only [hmask, if_neg hs4]
          omega
        · simp only
          exact Int.ofNat_le.mpr (hepoch pos)
        · intro hle
          unfold stateId
          simp only [Int.toNat_natCast, hmask, if_neg hs4]
          have htn : (w.last_timestamp).toNat = clock pos := by omega
          rw [htn]
          exact mkId_lt_of_seq_lt (clock pos) _ _ w.sequence (w.sequence + 1) hdc hwk hseq
            (by omega) (by omega)
    · rw [if_neg h₂] at h
      simp only [GetIdResult.ok.injEq] at h
      obtain ⟨hid, hw₂, hpos₂⟩ := h
      subst hw₂
      refine ⟨?_, rfl, rfl, by simp, ?_, by omega, ?_⟩
      · rw [← hid]
        unfold stateId
        simp only [Int.toNat_natCast]
      · simp only
        exact Int.ofNat_le.mpr (hepoch pos)
      · intro hle
        unfold stateId
        simp only [Int.toNat_natCast]
        exact mkId_lt_of_ts_lt w.last_timestamp.toNat (clock pos) _ _ w.sequence 0 hdc hwk hseq
          (by omega) (by omega) (by omega)

theorem runGetIds_chain (clock : ℕ → ℕ) (fuel : ℕ) (hepoch : ∀ i, STARTEPOCH ≤ clock i) :
    ∀ (n : ℕ) (w : IdWorker) (pos : ℕ) (ids : List ℕ) (w₃ : IdWorker) (pos₃ : ℕ),
      w.datacenter_id ≤ 31 → w.worker_id ≤ 7 → w.sequence ≤ 4095 →
      runGetIds clock fuel n w pos = some (ids, w₃, pos₃) →
      List.Chain' (· < ·) ids
      ∧ ((STARTEPOCH : ℤ) ≤ w.last_timestamp → List.Chain' (· < ·) (stateId w :: ids)) := by
  intro n
  induction n with
  | zero =>
    intro w pos ids w₃ pos₃ _ _ _ h
    simp only [runGetIds, Option.some.injEq, Prod.mk.injEq] at h
    obtain ⟨h₁, _⟩ := h
    rw [← h₁]
    exact ⟨List.chain'_nil, fun _ => List.chain'_singleton _⟩
  | succ n ih =>
    intro w pos ids w₃ pos₃ hdc hwk hseq h
    simp only [runGetIds] at h
    cases hg : get_id clock fuel w pos with
    | rollback => rw [hg] at h; exact absurd h (by simp)
    | outOfFuel => rw [hg] at h; exact absurd h (by simp)
    | ok id w₂ pos₂ =>
      rw [hg] at h
      dsimp only at h
      cases hr : runGetIds clock fuel n w₂ pos₂ with
      | none => rw [hr] at h; exact absurd h (by simp)
      | some tri =>
        obtain ⟨ids₂, w₄, pos₄⟩ := tri
        rw [hr] at h
        simp only [Option.some.injEq, Prod.mk.injEq] at h
        obtain ⟨hids, _⟩ := h
        obtain ⟨hid, hdc₂, hwk₂, hseq₂, hl₂, _, hstrict⟩ :=
          get_id_ok_spec clock fuel w pos hdc hwk hseq hepoch id w₂ pos₂ hg
        have ihres := ih w₂ pos₂ ids₂ w₄ pos₄ (by rw [hdc₂]; exact hdc)
          (by rw [hwk₂]; exact hwk) hseq₂ hr
        have htail : List.Chain' (· < ·) (stateId w₂ :: ids₂) := ihres.2 hl₂
        rw [← hids, hid]
        exact ⟨htail, fun hl => List.chain'_cons.mpr ⟨hstrict hl, htail⟩⟩

/-- C8: under any millisecond clock, every successful run of `get_id`
calls returns strictly increasing, pairwise distinct ids (in particular a
run that exhausts the 4096-value per-millisecond sequence space); and when
the sequence counter wraps to zero, `get_id` busy-waits until the clock
strictly exceeds the recorded timestamp, after which the new id has a
strictly greater timestamp component and a zero sequence component. -/
theorem claim_C8_idworker_ids (clock : ℕ → ℕ) (fuel n pos : ℕ) (w : IdWorker)
    (hmono : ∀ i j, i ≤ j → clock i ≤ clock j)
    (hepoch : ∀ i, STARTEPOCH ≤ clock i)
    (hdc : w.datacenter_id ≤ 31) (hwk : w.worker_id ≤ 7) (hseq : w.sequence ≤ 4095) :
    (∀ ids w₃ pos₃, runGetIds clock fuel n w pos = some (ids, w₃, pos₃) →
        List.Chain' (· < ·) ids ∧ List.Pairwise (· ≠ ·) ids)
    ∧ (w.sequence = 4095 → (clock pos : ℤ) = w.last_timestamp →
        ∀ id w₂ pos₂, get_id clock fuel w pos = .ok id w₂ pos₂ →
          w₂.sequence = 0
          ∧ w.last_timestamp < w₂.last_timestamp
          ∧ id % 2 ^ 12 = 0
          ∧ id / 2 ^ 20 = w₂.last_timestamp.toNat - STARTEPOCH
          ∧ w.last_timestamp.toNat - STARTEPOCH < id / 2 ^ 20
          ∧ (∀ ts₂ pos₂h,
              tilNextMillis clock w.last_timestamp (pos + 1) fuel = some (ts₂, pos₂h) →
              w.last_timestamp < (ts₂ : ℤ)
              ∧ ∀ k, pos + 1 ≤ k → k < pos₂h - 1 → (clock k : ℤ) ≤ w.last_timestamp)) := by
  constructor
  · intro ids w₃ pos₃ h
    have hch := (runGetIds_chain clock fuel hepoch n w pos ids w₃ pos₃ hdc hwk hseq h).1
    refine ⟨hch, ?_⟩
    exact (List.chain'_iff_pairwise.mp hch).imp fun hab => Nat.ne_of_lt hab
  · intro hs4 hsame id w₂ pos₂ hok
    unfold get_id at hok
    dsimp only at hok
    rw [if_neg (by omega), if_pos hsame] at hok
    have hmask := seq_mask_step w.sequence hseq
    rw [if_pos (by rw [hmask, if_pos hs4])] at hok
    cases htnm : tilNextMillis clock w.last_timestamp (pos + 1) fuel with
    | none => rw [htnm] at hok; exact absurd hok (by simp)
    | some r =>
      obtain ⟨ts₂, pos₂h⟩ := r
      rw [htnm] at hok
      simp only [GetIdResult.ok.injEq] at hok
      obtain ⟨hid, hw₂, hpos₂⟩ := hok
      obtain ⟨hl₁, hl₂, hl₃, hl₄⟩ := tilNextMillis_spec clock w.last_timestamp fuel
        (pos + 1) ts₂ pos₂h htnm
      have hts₂e : STARTEPOCH ≤ ts₂ := by rw [hl₃]; exact hepoch _
      have hlaste : (STARTEPOCH : ℤ) ≤ w.last_timestamp := by
        rw [← hsame]
        exact Int.ofNat_le.mpr (hepoch pos)
      subst hw₂
      have hidv : id = mkId ts₂ w.datacenter_id w.worker_id 0 := by
        rw [← hid, hmask, if_pos hs4]
      have hsum := mkId_eq ts₂ w.datacenter_id w.worker_id 0 hdc hwk (by omega)
      have hp : (2 : ℕ) ^ 12 = 4096 := by norm_num
      have hq : (2 : ℕ) ^ 15 = 32768 := by norm_num
      have hr : (2 : ℕ) ^ 20 = 1048576 := by norm_num
      have hE : STARTEPOCH = 1064980800000 := rfl
      refine ⟨?_, ?_, ?_, ?_, ?_, ?_⟩
      · simp only [hmask, if_pos hs4]
      · simp only
        exact hl₁
      · rw [hidv, hsum, hp, hr]
        rw [hE] at hts₂e ⊢
        omega
      · simp only [Int.toNat_natCast]
        rw [hidv, hsum, hp, hq, hr]
        rw [hE] at hts₂e ⊢
        omega
      · rw [hidv, hsum, hp, hq, hr]
        rw [hE] at hts₂e hlaste ⊢
        omega
      · intro ts₃ pos₃h htnm₂
        simp only [Option.some.injEq, Prod.mk.injEq] at htnm₂
        obtain ⟨hts, hps⟩ := htnm₂
        subst hts
        subst hps
        exact ⟨hl₁, hl₄⟩

/-- Witness for C8: a run of three calls on a fresh worker under the clock
`STARTEPOCH + i`, and a wrap at sequence 4095 under a clock that stays in
the same millisecond for two readings. -/
theorem claim_C8_witness :
    (List.Chain' (· < ·) [36864, 1085440, 2134016]
      ∧ List.Pairwise (· ≠ ·) [(36864 : ℕ), 1085440, 2134016])
    ∧ ((⟨1, 1, 0, ((STARTEPOCH + 1 : ℕ) : ℤ)⟩ : IdWorker).sequence = 0
      ∧ (⟨1, 1, 4095, ((STARTEPOCH : ℕ) : ℤ)⟩ : IdWorker).last_timestamp
          < (⟨1, 1, 0, ((STARTEPOCH + 1 : ℕ) : ℤ)⟩ : IdWorker).last_timestamp
      ∧ 1085440 % 2 ^ 12 = 0
      ∧ 1085440 / 2 ^ 20
          = (⟨1, 1, 0, ((STARTEPOCH + 1 : ℕ) : ℤ)⟩ : IdWorker).last_timestamp.toNat - STARTEPOCH
      ∧ (⟨1, 1, 4095, ((STARTEPOCH : ℕ) : ℤ)⟩ : IdWorker).last_timestamp.toNat - STARTEPOCH
          < 1085440 / 2 ^ 20) := by
  constructor
  · have h := claim_C8_idworker_ids (fun i => STARTEPOCH + i) 5 3 0 ⟨1, 1, 0, -1⟩
      (fun i j hij => Nat.add_le_add_left hij _) (fun i => Nat.le_add_right _ _)
      (by decide) (by decide) (by decide)
    exact h.1 [36864, 1085440, 2134016] ⟨1, 1, 0, ((STARTEPOCH + 2 : ℕ) : ℤ)⟩ 3 (by decide)
  · have h₂ := claim_C8_idworker_ids (fun i => if i < 2 then STARTEPOCH else STARTEPOCH + 1) 5 1 0
      ⟨1, 1, 4095, ((STARTEPOCH : ℕ) : ℤ)⟩
      (by intro i j hij; dsimp only; split <;> split <;> omega)
      (by intro i; dsimp only; split <;> omega)
      (by decide) (by decide) (by decide)
    have h₃ := h₂.2 rfl (by decide) 1085440 ⟨1, 1, 0, ((STARTEPOCH + 1 : ℕ) : ℤ)⟩ 3 (by decide)
    exact ⟨h₃.1, h₃.2.1, h₃.2.2.1, h₃.2.2.2.1, h₃.2.2.2.2.1⟩

end Melobot
